import Mathlib

/-!
# Verification of the pbkdf2-hmac package (src/ts/index.ts)

A shallow embedding of the repository's PBKDF2-HMAC derivation code.
Byte buffers (`Uint8Array`) are modelled as `List Nat`; the external
HMAC primitive (`crypto.subtle.sign('HMAC', ...)`) is an abstract
function parameter, as the spec treats the hash/HMAC implementations
as external collaborators.  Machine numbers (`c`, `dkLen`) are
modelled as `Int` so that the negative-input validation branches are
expressible; validation failures (JS `throw` / promise rejection) are
modelled with `Except`.
-/

namespace Pbkdf2

/-- A byte buffer (JS `Uint8Array`), one `Nat` per octet. -/
abbrev Bytes := List Nat

/-- Per-algorithm parameters, the values of the `HASHALGS` table. -/
structure AlgParams where
  outputLength : Nat
  blockSize : Nat
deriving DecidableEq

/-- The `HASHALGS` constant table of `src/ts/index.ts` (lines 21-26),
as a lookup over the table's own keys (`HASHALGS[hash]`). -/
def HASHALGS? (hash : String) : Option AlgParams :=
  if hash = "SHA-1" then some ⟨20, 64⟩
  else if hash = "SHA-256" then some ⟨32, 64⟩
  else if hash = "SHA-384" then some ⟨48, 128⟩
  else if hash = "SHA-512" then some ⟨64, 128⟩
  else none

/-- `Object.keys(HASHALGS)`, in table order. -/
def hashAlgNames : List String := ["SHA-1", "SHA-256", "SHA-384", "SHA-512"]

/-- The property names an object literal inherits from
`Object.prototype` (ECMA-262, including the Annex B accessors), which
the JS `in` operator also reports as present. -/
def objectProtoKeys : List String :=
  ["constructor", "hasOwnProperty", "isPrototypeOf", "propertyIsEnumerable",
   "toLocaleString", "toString", "valueOf", "__proto__",
   "__defineGetter__", "__defineSetter__", "__lookupGetter__", "__lookupSetter__"]

/-- The JS membership test `hash in HASHALGS` (lines 43 and 87): the
`in` operator consults the prototype chain, so besides the four table
keys it is also true for every property name inherited from
`Object.prototype` (`'toString' in HASHALGS` is `true`), and for those
the code performs no invalid-algorithm rejection. -/
def hashInHASHALGS (hash : String) : Bool :=
  (HASHALGS? hash).isSome || objectProtoKeys.contains hash

/-- A JS error value carried by a `throw` or a promise rejection.
The source only ever constructs `RangeError`s. -/
inductive JSError where
  | rangeError (msg : String)
deriving DecidableEq

/-- Message of the invalid-hash `RangeError`
(`Valid hash algorithm values are any of ${Object.keys(HASHALGS).toString()}`). -/
def invalidHashMsg : String :=
  "Valid hash algorithm values are any of " ++ String.intercalate "," hashAlgNames

/-- Message of the invalid-iteration-count `RangeError` (line 91). -/
def invalidCMsg : String := "c must be a positive integer"

/-- Message of the invalid-`dkLen` `RangeError` (line 98). -/
def invalidDkLenMsg : String := "dkLen must be a positive integer < (2 ** 32 - 1) * hLen"

/-- Message of `concat`'s empty-argument `RangeError` (line 206). -/
def concatErrMsg : String := "Cannot concat no arrays"

/-- Message of the `P`-type `RangeError` (line 49). -/
def pTypeMsg : String := "P should be string, ArrayBuffer, TypedArray, DataView"

/-- Message of the `S`-type `RangeError` (line 54). -/
def sTypeMsg : String := "S should be string, ArrayBuffer, TypedArray, DataView"

/-- The in-place `xorMe(arr1, arr2)` helper (lines 221-225): for each
index below `arr1.length`, `arr1[i] ^= arr2[i]`.  An out-of-range
`arr2[i]` reads as `undefined`, which `^=` coerces to `0`. -/
def xorMe (arr1 arr2 : Bytes) : Bytes :=
  (List.range arr1.length).map fun i => Nat.xor (arr1.getD i 0) (arr2.getD i 0)

/-- The `concat(...arrs)` helper (lines 202-219): throws a `RangeError`
on an empty argument list, otherwise concatenates the buffers. -/
def concatList (arrs : List Bytes) : Except JSError Bytes :=
  if arrs.length = 0 then .error (.rangeError concatErrMsg) else .ok arrs.flatten

/-- The `INT(i)` encoder inside `F` (lines 173-178):
`DataView.setUint32(0, i, false)` stores `i` modulo `2^32` big-endian. -/
def INT (i : Nat) : Bytes :=
  [i % 2 ^ 32 / 2 ^ 24 % 256, i % 2 ^ 32 / 2 ^ 16 % 256,
   i % 2 ^ 32 / 2 ^ 8 % 256, i % 2 ^ 32 % 256]

/-- The abstract HMAC capability: `hmac hash key message` stands for
`crypto.subtle.sign('HMAC', key-imported-for-hash, message)`.  The
hash/HMAC primitives are external collaborators of this package. -/
abbrev HmacFn := String → Bytes → Bytes → Bytes

/-- The inner loop of `F` (lines 182-185), run for `n` remaining
iterations with accumulator `Uacc` and previous iterate `UjMinus1`:
each round computes `Uj := HMAC(key, UjMinus1)` and folds it into the
accumulator with `xorMe`. -/
def Fgo (hmac : HmacFn) (hash : String) (key : Bytes) : Nat → Bytes → Bytes → Bytes
  | 0, Uacc, _ => Uacc
  | n + 1, Uacc, UjMinus1 =>
      let Uj := hmac hash key UjMinus1
      Fgo hmac hash key n (xorMe Uacc Uj) Uj

/-- The block function `F(P, S, c, i)` (lines 172-188): `U_1 =
HMAC(key, S || INT(i))`, then `c - 1` chained HMAC/xor rounds. -/
def F (hmac : HmacFn) (hash : String) (key S : Bytes) (c i : Nat) : Bytes :=
  let U1 := hmac hash key (S ++ INT i)
  Fgo hmac hash key (c - 1) U1 U1

/-- The empty-password substitution (line 122): a zero-length `P` is
replaced by a zero-filled buffer of the algorithm's `blockSize` before
being imported as the HMAC key. -/
def hmacKeyOf (blockSize : Nat) (P : Bytes) : Bytes :=
  if P.length = 0 then List.replicate blockSize 0 else P

/-- `l = Math.ceil(dkLen / hLen)` (line 107), on naturals. -/
def lOf (dk hLen : Nat) : Nat := (dk + hLen - 1) / hLen

/-- The block array `T` built by the loop at lines 144-146:
`T[i] = F(Pkey, S, c, i + 1)` for `i` from `0` to `l - 1`. -/
def blocksOf (hmac : HmacFn) (hash : String) (key S : Bytes) (c l : Nat) : List Bytes :=
  (List.range l).map fun i => F hmac hash key S c (i + 1)

/-- The manual engine `_pbkdf2` (lines 86-200): validation of `hash`,
`c` and `dkLen`, empty-password substitution, block loop, truncation
of the last block to `r` bytes and final concatenation. -/
def _pbkdf2 (hmac : HmacFn) (P S : Bytes) (c dkLen : Int) (hash : String) :
    Except JSError Bytes :=
  match HASHALGS? hash with
  | none => .error (.rangeError invalidHashMsg)
  | some p =>
    if c ≤ 0 then .error (.rangeError invalidCMsg)
    else if dkLen ≤ 0 ∨ (2 ^ 32 - 1) * (p.outputLength : Int) ≤ dkLen then
      .error (.rangeError invalidDkLenMsg)
    else
      let hLen := p.outputLength
      let dk := dkLen.toNat
      let l := lOf dk hLen
      let r := dk - (l - 1) * hLen
      let key := hmacKeyOf p.blockSize P
      let T := blocksOf hmac hash key S c.toNat l
      concatList (T.set (l - 1) ((T.getD (l - 1) []).take r))

/-! ## Spec-side definitions (RFC 2898 derivation as the spec words it)

These follow the specification text, to be compared with the embedded
source code above: `BE32` is "the big-endian 4-byte encoding of `i`",
`bxor` the "byte-wise XOR ... over equal-length buffers", `Useq` the
iterate chain `U_1, U_2, ...`, and `specF` the "XOR of the `c`
iterates". -/

/-- Spec: `BE32(i)`, the big-endian 4-byte encoding of `i`. -/
def BE32 (i : Nat) : Bytes :=
  [i / 2 ^ 24 % 256, i / 2 ^ 16 % 256, i / 2 ^ 8 % 256, i % 256]

/-- Spec: byte-wise XOR of two equal-length buffers. -/
def bxor (a b : Bytes) : Bytes := List.zipWith Nat.xor a b

/-- Spec: the iterate chain for block index `i`; `Useq ... i 0` is
`U_1 = HMAC(key, S || BE32(i))` and `Useq ... i (j+1)` is
`U_{j+2} = HMAC(key, U_{j+1})`. -/
def Useq (hmac : HmacFn) (hash : String) (key S : Bytes) (i : Nat) : Nat → Bytes
  | 0 => hmac hash key (S ++ BE32 i)
  | j + 1 => hmac hash key (Useq hmac hash key S i j)

/-- Spec: block `T_i`, the byte-wise XOR of the `c` iterates
`U_1 xor U_2 xor ... xor U_c`. -/
def specF (hmac : HmacFn) (hash : String) (key S : Bytes) (c i : Nat) : Bytes :=
  List.foldl bxor (Useq hmac hash key S i 0)
    ((List.range (c - 1)).map fun j => Useq hmac hash key S i (j + 1))

/-- Spec: the block list `T_1, ..., T_l`. -/
def specBlocks (hmac : HmacFn) (hash : String) (key S : Bytes) (c l : Nat) : List Bytes :=
  (List.range l).map fun i => specF hmac hash key S c (i + 1)

/-- Spec: the derived key `T_1 || ... || T_l` truncated to `dkLen`
bytes, with `l = ceil(dkLen / hLen)`. -/
def specDK (hmac : HmacFn) (hash : String) (key S : Bytes) (c dk hLen : Nat) : Bytes :=
  ((specBlocks hmac hash key S c (lOf dk hLen)).flatten).take dk

/-- Modelled from the spec: the platform-provided accelerated PBKDF2
primitive (`crypto.subtle.deriveBits` in browsers, `crypto.pbkdf2` in
node) is an external collaborator whose code is not in this
repository; per spec §6 and §4.2 it computes the RFC 2898 §5.2
derivation on the same `(P, S, c, dkLen, hash)` parameters, with the
empty-password zero-substitution of spec §4.2 step 3. -/
def platformPbkdf2 (hmac : HmacFn) (P S : Bytes) (c dk : Nat) (hash : String) : Bytes :=
  match HASHALGS? hash with
  | none => []
  | some p => specDK hmac hash (hmacKeyOf p.blockSize P) S c dk p.outputLength

/-! ## The public `pbkdf2Hmac` entry point (lines 41-84)

`pbkdf2Hmac` returns a `new Promise`.  Inside the executor it checks
the hash name, coerces `P` and `S` to byte buffers (calling `reject`
on failure **without returning**), and then always issues the platform
derivation call (`crypto.subtle.importKey`/`deriveBits` in browsers,
`crypto.pbkdf2` in node).  We model (a) the ordered list of observable
events of one call — rejections and the platform invocation — and (b)
the settled value of the returned promise, which is the first
settlement (later `resolve`/`reject` calls on an already-settled
promise are ignored). -/

/-- A JS argument for `P` or `S`: a string, a byte-buffer-like value
(`ArrayBuffer`, `TypedArray`, `DataView`), or anything else. -/
inductive JSVal where
  | str (s : String)
  | buf (b : Bytes)
  | other
deriving DecidableEq

/-- `TextEncoder().encode`, UTF-8 bytes of a string. -/
def utf8Encode (s : String) : Bytes := s.toUTF8.toList.map (·.toNat)

/-- The `P`/`S` coercion of lines 47-54: strings are UTF-8 encoded,
buffer-like values viewed as bytes, anything else fails. -/
def coerce (v : JSVal) : Option Bytes :=
  match v with
  | .str s => some (utf8Encode s)
  | .buf b => some b
  | .other => none

/-- An observable event of a `pbkdf2Hmac` call: a `reject(...)` of the
returned promise, or the invocation of the platform derivation
primitive with the (unvalidated) `hash`, `c` and `dkLen` arguments. -/
inductive Ev where
  | reject (e : JSError)
  | platformCall (hash : String) (c dkLen : Int)
deriving DecidableEq

/-- The ordered events of one `pbkdf2Hmac(P, S, c, dkLen, hash)` call
(lines 42-83): the hash-name check, the `P` and `S` coercion checks
(each `reject`s on failure but does not return), then — always — the
platform derivation call.  `c` and `dkLen` are never validated here. -/
def pbkdf2HmacTrace (P S : JSVal) (c dkLen : Int) (hash : String) : List Ev :=
  (if hashInHASHALGS hash then [] else [.reject (.rangeError invalidHashMsg)]) ++
  (if (coerce P).isSome then [] else [.reject (.rangeError pTypeMsg)]) ++
  (if (coerce S).isSome then [] else [.reject (.rangeError sTypeMsg)]) ++
  [.platformCall hash c dkLen]

/-- The settled value of the promise `pbkdf2Hmac` returns: the first
`reject` wins; if no synchronous `reject` fires, the promise settles
with the platform call's eventual settlement, abstracted as
`platformResult`. -/
def pbkdf2HmacOutcome (platformResult : Except JSError Bytes) (P S : JSVal)
    (c dkLen : Int) (hash : String) : Except JSError Bytes :=
  if !hashInHASHALGS hash then .error (.rangeError invalidHashMsg)
  else if (coerce P).isNone then .error (.rangeError pTypeMsg)
  else if (coerce S).isNone then .error (.rangeError sTypeMsg)
  else platformResult

/-- A concrete HMAC instance used to instantiate theorems on concrete
inputs: it returns the all-zero digest of the algorithm's output
length (any function of type `HmacFn` with that length property is
admissible, since the hash primitives are external). -/
def hmacConst (hash : String) (_key _msg : Bytes) : Bytes :=
  List.replicate (match HASHALGS? hash with | some p => p.outputLength | none => 0) 0

/-- Out-of-order block computation: starting from an array `T`, write
block `f i` into slot `i` for each index `i` of `ord` in turn.  The
sequential loop of lines 144-146 is `writeBlocks f [0, ..., l-1]`;
claim C9 is that any permutation of the indices gives the same array,
because `f` (the block function `F`) depends only on the index. -/
def writeBlocks (f : Nat → Bytes) (ord : List Nat) (T : List Bytes) : List Bytes :=
  ord.foldl (fun acc i => acc.set i (f i)) T

deriving instance DecidableEq for Except

/-! ## Basic lemmas -/

theorem xorMe_length (a b : Bytes) : (xorMe a b).length = a.length := by
  simp [xorMe]

theorem bxor_length (a b : Bytes) : (bxor a b).length = min a.length b.length := by
  simp [bxor]

theorem xorMe_eq_bxor (a b : Bytes) (h : a.length = b.length) : xorMe a b = bxor a b := by
  apply List.ext_getElem
  · simp [xorMe, bxor, h]
  · intro i h1 h2
    have ha : i < a.length := by rw [xorMe_length] at h1; omega
    have hb : i < b.length := by omega
    simp only [xorMe, bxor, List.getElem_map, List.getElem_range, List.getElem_zipWith]
    rw [List.getD_eq_getElem a 0 ha, List.getD_eq_getElem b 0 hb]

theorem Fgo_length (hmac : HmacFn) (hash : String) (key : Bytes) :
    ∀ (n : Nat) (acc prev : Bytes), (Fgo hmac hash key n acc prev).length = acc.length := by
  intro n
  induction n with
  | zero => intro acc prev; rfl
  | succ n ih => intro acc prev; rw [Fgo, ih, xorMe_length]

theorem F_length (hmac : HmacFn) (hash : String) (key S : Bytes) (c i : Nat)
    (hLen : Nat) (hl : ∀ m, (hmac hash key m).length = hLen) :
    (F hmac hash key S c i).length = hLen := by
  rw [F, Fgo_length, hl]

theorem Useq_length (hmac : HmacFn) (hash : String) (key S : Bytes) (i : Nat)
    (hLen : Nat) (hl : ∀ m, (hmac hash key m).length = hLen) :
    ∀ j, (Useq hmac hash key S i j).length = hLen := by
  intro j
  cases j with
  | zero => rw [Useq, hl]
  | succ j => rw [Useq, hl]

theorem INT_eq_BE32 (i : Nat) (h : i < 2 ^ 32) : INT i = BE32 i := by
  rw [INT, BE32, Nat.mod_eq_of_lt h]

/-! ## The inner loop computes the XOR of the iterate chain -/

theorem Fgo_eq_foldl (hmac : HmacFn) (hash : String) (key S : Bytes) (i : Nat)
    (hLen : Nat) (hl : ∀ m, (hmac hash key m).length = hLen) :
    ∀ (n k : Nat) (acc : Bytes), acc.length = hLen →
      Fgo hmac hash key n acc (Useq hmac hash key S i k) =
        List.foldl bxor acc
          ((List.range n).map fun j => Useq hmac hash key S i (k + j + 1)) := by
  intro n
  induction n with
  | zero => intro k acc hacc; rfl
  | succ n ih =>
    intro k acc hacc
    rw [Fgo]
    have hU : hmac hash key (Useq hmac hash key S i k) = Useq hmac hash key S i (k + 1) := rfl
    rw [hU, xorMe_eq_bxor acc _ (by rw [hacc, Useq_length hmac hash key S i hLen hl])]
    rw [ih (k + 1) _ (by rw [bxor_length, hacc, Useq_length hmac hash key S i hLen hl]; omega)]
    rw [List.range_succ_eq_map, List.map_cons, List.foldl_cons, List.map_map]
    congr 1
    apply List.map_congr_left
    intro j hj
    simp only [Function.comp_apply]
    congr 1
    omega

theorem F_eq_specF (hmac : HmacFn) (hash : String) (key S : Bytes) (c i : Nat)
    (hi : i < 2 ^ 32) (hLen : Nat) (hl : ∀ m, (hmac hash key m).length = hLen) :
    F hmac hash key S c i = specF hmac hash key S c i := by
  rw [F, specF]
  have hU1 : hmac hash key (S ++ INT i) = Useq hmac hash key S i 0 := by
    rw [Useq, INT_eq_BE32 i hi]
  rw [hU1, Fgo_eq_foldl hmac hash key S i hLen hl (c - 1) 0 _
    (Useq_length hmac hash key S i hLen hl 0)]
  simp

theorem blocksOf_eq_specBlocks (hmac : HmacFn) (hash : String) (key S : Bytes)
    (c l : Nat) (hl32 : l < 2 ^ 32)
    (hLen : Nat) (hl : ∀ m, (hmac hash key m).length = hLen) :
    blocksOf hmac hash key S c l = specBlocks hmac hash key S c l := by
  rw [blocksOf, specBlocks]
  apply List.map_congr_left
  intro i hi
  rw [List.mem_range] at hi
  exact F_eq_specF hmac hash key S c (i + 1) (by omega) hLen hl

/-! ## Arithmetic facts about `l = ceil(dkLen / hLen)` and `r` -/

theorem ceil_facts (h dk : Nat) (hh : 0 < h) (hdk : 0 < dk) :
    1 ≤ lOf dk h ∧ 1 ≤ dk - (lOf dk h - 1) * h ∧ dk - (lOf dk h - 1) * h ≤ h ∧
      (lOf dk h - 1) * h + (dk - (lOf dk h - 1) * h) = dk ∧ dk ≤ lOf dk h * h := by
  have hdm := Nat.div_add_mod (dk + h - 1) h
  have hmlt : (dk + h - 1) % h < h := Nat.mod_lt _ hh
  rw [lOf]
  generalize hqdef : (dk + h - 1) / h = q at hdm ⊢
  generalize hmdef : (dk + h - 1) % h = m at hdm hmlt
  rcases q with _ | q1
  · exfalso; omega
  · have hexp : h * (q1 + 1) = h * q1 + h := by ring
    rw [hexp] at hdm
    have h1 : (q1 + 1 - 1) * h = h * q1 := by
      rw [Nat.add_sub_cancel, Nat.mul_comm]
    have h2 : (q1 + 1) * h = h * q1 + h := by ring
    rw [h1, h2]
    generalize h * q1 = A at hdm ⊢
    omega

theorem lOf_lt_2pow32 (h dk : Nat) (hh : 0 < h) (hb : dk < (2 ^ 32 - 1) * h) :
    lOf dk h < 2 ^ 32 := by
  have hdm := Nat.div_add_mod (dk + h - 1) h
  have hmlt : (dk + h - 1) % h < h := Nat.mod_lt _ hh
  rw [lOf]
  generalize hqdef : (dk + h - 1) / h = q at hdm ⊢
  generalize hmdef : (dk + h - 1) % h = m at hdm hmlt
  by_contra hc
  push_neg at hc
  have hmul : h * 2 ^ 32 ≤ h * q := Nat.mul_le_mul_left h hc
  generalize h * q = A at hdm hmul
  omega

/-! ## Truncation of the last block commutes with concatenation -/

theorem flatten_length_of_forall (L : List Bytes) (h : Nat)
    (hlen : ∀ b ∈ L, b.length = h) : L.flatten.length = L.length * h := by
  induction L with
  | nil => simp
  | cons x xs ih =>
    simp only [List.flatten_cons, List.length_append, List.length_cons]
    rw [hlen x (by simp), ih (fun b hb => hlen b (by simp [hb]))]
    ring

theorem flatten_set_take (h r : Nat) (hr : r ≤ h) :
    ∀ L : List Bytes, (∀ b ∈ L, b.length = h) → L ≠ [] →
      (L.set (L.length - 1) ((L.getD (L.length - 1) []).take r)).flatten
        = L.flatten.take ((L.length - 1) * h + r) := by
  intro L
  induction L with
  | nil => intro _ hne; exact absurd rfl hne
  | cons x xs ih =>
    intro hlen _
    cases xs with
    | nil => simp
    | cons y ys =>
      have hx : x.length = h := hlen x (by simp)
      have hlen' : ∀ b ∈ y :: ys, b.length = h := fun b hb => hlen b (by simp [hb])
      have hset : (x :: y :: ys).length - 1 = ys.length + 1 := by simp
      have hyslen : (y :: ys).length - 1 = ys.length := by simp
      have ihy := ih hlen' (by simp)
      rw [hyslen] at ihy
      have hexp : (ys.length + 1) * h = ys.length * h + h := by ring
      have hmulpos : h ≤ (ys.length + 1) * h :=
        Nat.le_mul_of_pos_left h (show 0 < ys.length + 1 by omega)
      have harg : (ys.length + 1) * h + r - x.length = ys.length * h + r := by
        rw [hx, hexp]; omega
      have hxle : x.length ≤ (ys.length + 1) * h + r := by rw [hx]; omega
      have hrhs : List.take ((ys.length + 1) * h + r) (x :: y :: ys).flatten
          = x ++ List.take (ys.length * h + r) (y :: ys).flatten := by
        rw [List.flatten_cons, List.take_append_eq_append_take,
          List.take_of_length_le hxle, harg]
      have hgetD : (x :: y :: ys).getD (ys.length + 1) [] = (y :: ys).getD ys.length [] := rfl
      rw [hset, hrhs, hgetD, List.set_cons_succ, List.flatten_cons, ihy]

/-! ## Block-list lemmas -/

theorem blocksOf_length (hmac : HmacFn) (hash : String) (key S : Bytes) (c l : Nat) :
    (blocksOf hmac hash key S c l).length = l := by
  simp [blocksOf]

theorem blocksOf_forall_length (hmac : HmacFn) (hash : String) (key S : Bytes)
    (c l hLen : Nat) (hl : ∀ m, (hmac hash key m).length = hLen) :
    ∀ b ∈ blocksOf hmac hash key S c l, b.length = hLen := by
  intro b hb
  rw [blocksOf] at hb
  obtain ⟨i, _, rfl⟩ := List.mem_map.mp hb
  exact F_length hmac hash key S c (i + 1) hLen hl

theorem algParams_pos (hash : String) (p : AlgParams) (hp : HASHALGS? hash = some p) :
    0 < p.outputLength ∧ 0 < p.blockSize := by
  unfold HASHALGS? at hp
  split_ifs at hp <;> cases hp <;> decide

/-! ## The master theorem: the engine on valid inputs computes the
RFC 2898 derivation -/

theorem pbkdf2_valid_eq (hmac : HmacFn) (P S : Bytes) (c dkLen : Int) (hash : String)
    (p : AlgParams) (hp : HASHALGS? hash = some p)
    (hlen : ∀ k m, (hmac hash k m).length = p.outputLength)
    (hc : 0 < c) (hdk1 : 0 < dkLen)
    (hdk2 : dkLen < (2 ^ 32 - 1) * (p.outputLength : Int)) :
    _pbkdf2 hmac P S c dkLen hash =
      .ok (specDK hmac hash (hmacKeyOf p.blockSize P) S c.toNat dkLen.toNat p.outputLength) := by
  obtain ⟨hhpos, _⟩ := algParams_pos hash p hp
  have hdkpos : 0 < dkLen.toNat := by omega
  have hdkbound : dkLen.toNat < (2 ^ 32 - 1) * p.outputLength := by
    have : ((2 ^ 32 - 1 : Nat) * p.outputLength : Int) = (2 ^ 32 - 1) * (p.outputLength : Int) := by
      push_cast; ring
    omega
  set hLen := p.outputLength with hhLen
  set dk := dkLen.toNat with hdk
  set l := lOf dk hLen with hldef
  obtain ⟨hl1, hr1, hrh, hsum, hdkle⟩ := ceil_facts hLen dk hhpos hdkpos
  have hl32 : l < 2 ^ 32 := lOf_lt_2pow32 hLen dk hhpos hdkbound
  set key := hmacKeyOf p.blockSize P with hkey
  have hkeylen : ∀ m, (hmac hash key m).length = hLen := fun m => hlen key m
  simp only [_pbkdf2, hp, ← hhLen, ← hdk]
  rw [if_neg (by omega), if_neg (by push_neg; constructor <;> omega)]
  rw [concatList, if_neg (by rw [List.length_set, blocksOf_length]; omega)]
  congr 1
  rw [specDK]
  have hTlen : (blocksOf hmac hash key S c.toNat l).length = l :=
    blocksOf_length hmac hash key S c.toNat l
  have := flatten_set_take hLen (dk - (l - 1) * hLen) hrh
    (blocksOf hmac hash key S c.toNat l)
    (blocksOf_forall_length hmac hash key S c.toNat l hLen hkeylen)
    (by rw [← List.length_pos_iff_ne_nil, hTlen]; omega)
  rw [hTlen] at this
  rw [this, hsum, blocksOf_eq_specBlocks hmac hash key S c.toNat l hl32 hLen hkeylen]

/-! ## Length of the spec-side derivation -/

theorem foldl_bxor_length (hLen : Nat) :
    ∀ (L : List Bytes) (acc : Bytes), acc.length = hLen → (∀ b ∈ L, b.length = hLen) →
      (List.foldl bxor acc L).length = hLen := by
  intro L
  induction L with
  | nil => intro acc h _; exact h
  | cons x xs ih =>
    intro acc h hL
    rw [List.foldl_cons]
    exact ih _ (by rw [bxor_length, h, hL x (by simp)]; omega)
      (fun b hb => hL b (by simp [hb]))

theorem specF_length (hmac : HmacFn) (hash : String) (key S : Bytes) (c i hLen : Nat)
    (hl : ∀ m, (hmac hash key m).length = hLen) :
    (specF hmac hash key S c i).length = hLen := by
  rw [specF]
  apply foldl_bxor_length
  · exact Useq_length hmac hash key S i hLen hl 0
  · intro b hb
    obtain ⟨j, _, rfl⟩ := List.mem_map.mp hb
    exact Useq_length hmac hash key S i hLen hl (j + 1)

theorem specBlocks_forall_length (hmac : HmacFn) (hash : String) (key S : Bytes)
    (c l hLen : Nat) (hl : ∀ m, (hmac hash key m).length = hLen) :
    ∀ b ∈ specBlocks hmac hash key S c l, b.length = hLen := by
  intro b hb
  rw [specBlocks] at hb
  obtain ⟨i, _, rfl⟩ := List.mem_map.mp hb
  exact specF_length hmac hash key S c (i + 1) hLen hl

theorem specDK_length (hmac : HmacFn) (hash : String) (key S : Bytes) (c dk hLen : Nat)
    (hh : 0 < hLen) (hdk : 0 < dk) (hl : ∀ m, (hmac hash key m).length = hLen) :
    (specDK hmac hash key S c dk hLen).length = dk := by
  rw [specDK, List.length_take,
    flatten_length_of_forall _ hLen (specBlocks_forall_length hmac hash key S c _ hLen hl)]
  have hlen_eq : (specBlocks hmac hash key S c (lOf dk hLen)).length = lOf dk hLen := by
    simp [specBlocks]
  rw [hlen_eq]
  obtain ⟨_, _, _, _, hdkle⟩ := ceil_facts hLen dk hh hdk
  omega

/-! ## Claim theorems C1 - C3 -/

/-- Claim C1: on every valid input the manual engine `_pbkdf2` returns
exactly the RFC 2898 PBKDF2 derivation: with `l = ceil(dkLen / hLen)`,
each block `T_i` is the byte-wise XOR of the `c` iterates
`U_1 = HMAC(key, S || BE32(i))`, `U_j = HMAC(key, U_(j-1))`, and the
result is `T_1 || ... || T_l` truncated to `dkLen` bytes
(`specDK`, built from `specF`, `Useq` and `BE32`). -/
theorem claim1_manual_engine_computes_rfc2898 (hmac : HmacFn) (P S : Bytes)
    (c dkLen : Int) (hash : String) (p : AlgParams)
    (hp : HASHALGS? hash = some p)
    (hlen : ∀ k m, (hmac hash k m).length = p.outputLength)
    (hc : 0 < c) (hdk1 : 0 < dkLen)
    (hdk2 : dkLen < (2 ^ 32 - 1) * (p.outputLength : Int)) :
    _pbkdf2 hmac P S c dkLen hash =
      .ok (specDK hmac hash (hmacKeyOf p.blockSize P) S c.toNat dkLen.toNat p.outputLength) :=
  pbkdf2_valid_eq hmac P S c dkLen hash p hp hlen hc hdk1 hdk2

/-- Witness for C1: a concrete run with `hash = "SHA-1"`, `c = 2`,
`dkLen = 25` (two blocks, five bytes kept from the last one). -/
theorem claim1_witness :
    _pbkdf2 hmacConst [1] [2] 2 25 "SHA-1" =
      .ok (specDK hmacConst "SHA-1" (hmacKeyOf 64 [1]) [2] 2 25 20) :=
  claim1_manual_engine_computes_rfc2898 hmacConst [1] [2] 2 25 "SHA-1" ⟨20, 64⟩ rfl
    (fun _ _ => rfl) (by decide) (by decide) (by decide)

/-- Claim C2: on every valid input the derivation succeeds and the
returned buffer has length exactly `dkLen`; moreover `dkLen` splits as
`(l - 1) * hLen` bytes from the earlier blocks plus the
`r = dkLen - (l - 1) * hLen` bytes kept from the final block. -/
theorem claim2_output_length_exact (hmac : HmacFn) (P S : Bytes)
    (c dkLen : Int) (hash : String) (p : AlgParams)
    (hp : HASHALGS? hash = some p)
    (hlen : ∀ k m, (hmac hash k m).length = p.outputLength)
    (hc : 0 < c) (hdk1 : 0 < dkLen)
    (hdk2 : dkLen < (2 ^ 32 - 1) * (p.outputLength : Int)) :
    ∃ DK, _pbkdf2 hmac P S c dkLen hash = .ok DK ∧ DK.length = dkLen.toNat ∧
      (lOf dkLen.toNat p.outputLength - 1) * p.outputLength +
        (dkLen.toNat - (lOf dkLen.toNat p.outputLength - 1) * p.outputLength)
        = dkLen.toNat := by
  obtain ⟨hhpos, _⟩ := algParams_pos hash p hp
  have hdkpos : 0 < dkLen.toNat := by omega
  obtain ⟨_, _, _, hsum, _⟩ := ceil_facts p.outputLength dkLen.toNat hhpos hdkpos
  exact ⟨_, pbkdf2_valid_eq hmac P S c dkLen hash p hp hlen hc hdk1 hdk2,
    specDK_length hmac hash (hmacKeyOf p.blockSize P) S c.toNat dkLen.toNat
      p.outputLength hhpos hdkpos (fun m => hlen _ m), hsum⟩

/-- Witness for C2: `hash = "SHA-256"`, `c = 3`, `dkLen = 33` gives a
33-byte derived key. -/
theorem claim2_witness :
    ∃ DK, _pbkdf2 hmacConst [5] [6] 3 33 "SHA-256" = .ok DK ∧ DK.length = 33 ∧
      (lOf 33 32 - 1) * 32 + (33 - (lOf 33 32 - 1) * 32) = 33 :=
  claim2_output_length_exact hmacConst [5] [6] 3 33 "SHA-256" ⟨32, 64⟩ rfl
    (fun _ _ => rfl) (by decide) (by decide) (by decide)

/-- Claim C3: on every valid input the manual fallback engine returns
exactly what the (spec-modelled) platform-delegated derivation
returns, so the executed path is unobservable through the value. -/
theorem claim3_platform_and_manual_agree (hmac : HmacFn) (P S : Bytes)
    (c dkLen : Int) (hash : String) (p : AlgParams)
    (hp : HASHALGS? hash = some p)
    (hlen : ∀ k m, (hmac hash k m).length = p.outputLength)
    (hc : 0 < c) (hdk1 : 0 < dkLen)
    (hdk2 : dkLen < (2 ^ 32 - 1) * (p.outputLength : Int)) :
    _pbkdf2 hmac P S c dkLen hash =
      .ok (platformPbkdf2 hmac P S c.toNat dkLen.toNat hash) := by
  simp only [platformPbkdf2, hp]
  exact pbkdf2_valid_eq hmac P S c dkLen hash p hp hlen hc hdk1 hdk2

/-- Witness for C3: a concrete run with `hash = "SHA-384"`, `c = 1`,
`dkLen = 10`. -/
theorem claim3_witness :
    _pbkdf2 hmacConst [7] [8] 1 10 "SHA-384" =
      .ok (platformPbkdf2 hmacConst [7] [8] 1 10 "SHA-384") :=
  claim3_platform_and_manual_agree hmacConst [7] [8] 1 10 "SHA-384" ⟨48, 128⟩ rfl
    (fun _ _ => rfl) (by decide) (by decide) (by decide)

/-! ## Validation claims C5 - C7 -/

theorem concatList_error_msg (arrs : List Bytes) (e : JSError)
    (h : concatList arrs = .error e) : e = .rangeError concatErrMsg := by
  rw [concatList] at h
  split_ifs at h
  cases h
  rfl

/-- Counterexample to claim C5 as stated: `"toString"` is outside the
recognized set (`HASHALGS? "toString" = none`), yet the code's
membership check `'toString' in HASHALGS` passes because the name is
inherited from `Object.prototype`, so the invalid-algorithm rejection
never fires and the promise settles with the platform or fallback
error instead — in the browser fallback path, `new Array(NaN)` at
line 120 throws `RangeError: Invalid array length` — whose message
does not list the recognized set. -/
theorem claim5_counterexample :
    HASHALGS? "toString" = none ∧
    hashInHASHALGS "toString" = true ∧
    pbkdf2HmacOutcome (.error (.rangeError "Invalid array length"))
        (.buf [1]) (.buf [2]) 1 32 "toString"
      ≠ .error (.rangeError invalidHashMsg) :=
  ⟨rfl, rfl, by decide⟩

/-- Claim C5 (amended): with a hash argument failing the code's JS
membership check `hash in HASHALGS` — that is, neither a recognized
algorithm name nor a property name inherited from `Object.prototype` —
whatever the other parameters are, the promise `pbkdf2Hmac` returns
settles with the invalid-algorithm `RangeError` (so no derived key is
delivered), and the error message lists the recognized set. -/
theorem claim5_invalid_algorithm (platformResult : Except JSError Bytes)
    (P S : JSVal) (c dkLen : Int) (hash : String)
    (hh : hashInHASHALGS hash = false) :
    pbkdf2HmacOutcome platformResult P S c dkLen hash =
      .error (.rangeError invalidHashMsg) ∧
    invalidHashMsg = "Valid hash algorithm values are any of SHA-1,SHA-256,SHA-384,SHA-512" :=
  ⟨by rw [pbkdf2HmacOutcome, if_pos (by rw [hh]; rfl)], rfl⟩

/-- Witness for (amended) C5: `hash = "MD5"` fails the membership
check; otherwise-valid parameters and a platform settlement that
would have succeeded. -/
theorem claim5_witness :
    pbkdf2HmacOutcome (.ok [0]) (.buf [1]) (.buf [2]) 1000 32 "MD5" =
        .error (.rangeError invalidHashMsg) ∧
      invalidHashMsg =
        "Valid hash algorithm values are any of SHA-1,SHA-256,SHA-384,SHA-512" :=
  claim5_invalid_algorithm (.ok [0]) (.buf [1]) (.buf [2]) 1000 32 "MD5" (by decide)

/-- Claim C6: with a recognized hash and a valid iteration count, the
engine fails with the derived-key-length `RangeError` exactly when
`dkLen` is outside `0 < dkLen < (2^32 - 1) * hLen`. -/
theorem claim6_dklen_validation (hmac : HmacFn) (P S : Bytes) (c dkLen : Int)
    (hash : String) (p : AlgParams)
    (hp : HASHALGS? hash = some p) (hc : 0 < c) :
    _pbkdf2 hmac P S c dkLen hash = .error (.rangeError invalidDkLenMsg) ↔
      ¬ (0 < dkLen ∧ dkLen < (2 ^ 32 - 1) * (p.outputLength : Int)) := by
  simp only [_pbkdf2, hp]
  rw [if_neg (by omega)]
  by_cases hcond : dkLen ≤ 0 ∨ (2 ^ 32 - 1) * (p.outputLength : Int) ≤ dkLen
  · rw [if_pos hcond]
    exact ⟨fun _ => by omega, fun _ => rfl⟩
  · rw [if_neg hcond]
    push_neg at hcond
    constructor
    · intro h
      exact absurd (concatList_error_msg _ _ h) (by decide)
    · intro habs
      exact absurd ⟨hcond.1, hcond.2⟩ habs

/-- Witness for C6: at `dkLen = 0` (invalid) the length error is
raised; the theorem applied at `hash = "SHA-512"`, `c = 1`. -/
theorem claim6_witness :
    _pbkdf2 hmacConst [1] [2] 1 0 "SHA-512" = .error (.rangeError invalidDkLenMsg) ↔
      ¬ ((0 : Int) < 0 ∧ (0 : Int) < (2 ^ 32 - 1) * ((64 : Nat) : Int)) :=
  claim6_dklen_validation hmacConst [1] [2] 1 0 "SHA-512" ⟨64, 128⟩ rfl (by decide)

/-- Claim C7: with a recognized hash, the engine fails with the
invalid-iteration-count `RangeError` exactly when `c ≤ 0`. -/
theorem claim7_iteration_count_validation (hmac : HmacFn) (P S : Bytes) (c dkLen : Int)
    (hash : String) (p : AlgParams) (hp : HASHALGS? hash = some p) :
    _pbkdf2 hmac P S c dkLen hash = .error (.rangeError invalidCMsg) ↔ c ≤ 0 := by
  simp only [_pbkdf2, hp]
  by_cases hc : c ≤ 0
  · rw [if_pos hc]
    exact ⟨fun _ => hc, fun _ => rfl⟩
  · rw [if_neg hc]
    constructor
    · intro h
      exfalso
      by_cases hcond : dkLen ≤ 0 ∨ (2 ^ 32 - 1) * (p.outputLength : Int) ≤ dkLen
      · rw [if_pos hcond] at h
        exact absurd h (by decide)
      · rw [if_neg hcond] at h
        exact absurd (concatList_error_msg _ _ h) (by decide)
    · intro hcc
      exact absurd hcc hc

/-- Witness for C7: at `c = 0` the iteration-count error is raised;
the theorem applied at `hash = "SHA-256"`, `dkLen = 16`. -/
theorem claim7_witness :
    _pbkdf2 hmacConst [3] [4] 0 16 "SHA-256" = .error (.rangeError invalidCMsg) ↔
      (0 : Int) ≤ 0 :=
  claim7_iteration_count_validation hmacConst [3] [4] 0 16 "SHA-256" ⟨32, 64⟩ rfl

/-! ## Claim C8: empty-password substitution -/

/-- Claim C8: with an empty password the engine keys HMAC with a
zero-filled buffer of the algorithm's `blockSize` — a non-empty key,
so the HMAC step is never invoked on an empty key — and the derived
result is exactly the derivation computed with that substituted key,
for all `S`, `c`, `dkLen`. -/
theorem claim8_empty_password (hmac : HmacFn) (S : Bytes) (c dkLen : Int)
    (hash : String) (p : AlgParams) (hp : HASHALGS? hash = some p) :
    hmacKeyOf p.blockSize [] = List.replicate p.blockSize 0 ∧
    0 < (hmacKeyOf p.blockSize []).length ∧
    _pbkdf2 hmac [] S c dkLen hash =
      _pbkdf2 hmac (List.replicate p.blockSize 0) S c dkLen hash := by
  obtain ⟨_, hbs⟩ := algParams_pos hash p hp
  have hkey : hmacKeyOf p.blockSize (List.replicate p.blockSize 0) =
      hmacKeyOf p.blockSize [] := by
    rw [hmacKeyOf, hmacKeyOf]
    split_ifs <;> simp_all
  refine ⟨rfl, ?_, ?_⟩
  · have hlen : (hmacKeyOf p.blockSize []).length = p.blockSize := by
      rw [hmacKeyOf]; simp
    omega
  · simp only [_pbkdf2, hp]
    rw [hkey]

/-- Witness for C8: `hash = "SHA-1"` (block size 64), arbitrary other
parameters. -/
theorem claim8_witness :
    hmacKeyOf 64 [] = List.replicate 64 0 ∧
      0 < (hmacKeyOf 64 []).length ∧
      _pbkdf2 hmacConst [] [9] 2 10 "SHA-1" =
        _pbkdf2 hmacConst (List.replicate 64 0) [9] 2 10 "SHA-1" :=
  claim8_empty_password hmacConst [9] 2 10 "SHA-1" ⟨20, 64⟩ rfl

/-! ## Claim C9: block independence -/

theorem writeBlocks_length (f : Nat → Bytes) :
    ∀ (ord : List Nat) (T : List Bytes), (writeBlocks f ord T).length = T.length := by
  intro ord
  induction ord with
  | nil => intro T; rfl
  | cons i ord ih =>
    intro T
    show (writeBlocks f ord (T.set i (f i))).length = T.length
    rw [ih, List.length_set]

theorem writeBlocks_getD (f : Nat → Bytes) :
    ∀ (ord : List Nat) (T : List Bytes) (k : Nat), k < T.length →
      (writeBlocks f ord T).getD k [] = if k ∈ ord then f k else T.getD k [] := by
  intro ord
  induction ord with
  | nil => intro T k hk; simp [writeBlocks]
  | cons i ord ih =>
    intro T k hk
    have hstep : writeBlocks f (i :: ord) T = writeBlocks f ord (T.set i (f i)) := rfl
    rw [hstep, ih (T.set i (f i)) k (by rw [List.length_set]; exact hk)]
    by_cases hmem : k ∈ ord
    · rw [if_pos hmem, if_pos (by simp [List.mem_cons, hmem])]
    · rw [if_neg hmem]
      by_cases hik : k = i
      · subst hik
        rw [if_pos (by simp), List.getD_eq_getElem _ _ (by rw [List.length_set]; exact hk),
          List.getElem_set_self]
      · rw [if_neg (by simp [List.mem_cons, hmem, hik]),
          List.getD_eq_getElem _ _ (by rw [List.length_set]; exact hk),
          List.getD_eq_getElem _ _ hk, List.getElem_set_ne (by omega)]

/-- Claim C9: each block is a pure function of the block index alone
(given `P`, `S`, `c`, hash), so writing the blocks into the output
array in any order — any permutation `ord` of the index range — gives
exactly the sequential loop's block array, and hence the same
concatenated derived key. -/
theorem claim9_block_independence (hmac : HmacFn) (hash : String) (key S : Bytes)
    (c l : Nat) (ord : List Nat) (hperm : ord.Perm (List.range l)) :
    writeBlocks (fun i => F hmac hash key S c (i + 1)) ord (List.replicate l [])
      = blocksOf hmac hash key S c l ∧
    (writeBlocks (fun i => F hmac hash key S c (i + 1)) ord (List.replicate l [])).flatten
      = (blocksOf hmac hash key S c l).flatten := by
  have hmain : writeBlocks (fun i => F hmac hash key S c (i + 1)) ord (List.replicate l [])
      = blocksOf hmac hash key S c l := by
    apply List.ext_getElem
    · rw [writeBlocks_length, List.length_replicate, blocksOf_length]
    · intro k h1 h2
      have hkl : k < l := by rw [blocksOf_length] at h2; exact h2
      have hmem : k ∈ ord := hperm.mem_iff.mpr (List.mem_range.mpr hkl)
      have e1 : (writeBlocks (fun i => F hmac hash key S c (i + 1)) ord
          (List.replicate l [])).getD k [] = F hmac hash key S c (k + 1) := by
        rw [writeBlocks_getD _ ord _ k (by simpa using hkl)]
        exact if_pos hmem
      have e2 : (blocksOf hmac hash key S c l).getD k [] = F hmac hash key S c (k + 1) := by
        rw [List.getD_eq_getElem _ _ h2]
        simp [blocksOf]
      rw [← List.getD_eq_getElem _ [] h1, ← List.getD_eq_getElem _ [] h2, e1, e2]
  exact ⟨hmain, by rw [hmain]⟩

/-- Witness for C9: the two blocks of a `l = 2` derivation computed in
reversed order `[1, 0]` coincide with the sequential block array. -/
theorem claim9_witness :
    writeBlocks (fun i => F hmacConst "SHA-1" [1] [2] 1 (i + 1)) [1, 0] (List.replicate 2 [])
        = blocksOf hmacConst "SHA-1" [1] [2] 1 2 ∧
      (writeBlocks (fun i => F hmacConst "SHA-1" [1] [2] 1 (i + 1)) [1, 0]
          (List.replicate 2 [])).flatten
        = (blocksOf hmacConst "SHA-1" [1] [2] 1 2).flatten :=
  claim9_block_independence hmacConst "SHA-1" [1] [2] 1 2 [1, 0] (by decide)

/-! ## Claim C10: the concat error branch is unreachable -/

/-- Claim C10: for valid inputs the block count `l = ceil(dkLen/hLen)`
is at least 1, the last-block index `l - 1` is in bounds for the block
array, and the final `concat` call succeeds — its
`Cannot concat no arrays` branch is unreachable from the engine. -/
theorem claim10_concat_unreachable (hmac : HmacFn) (P S : Bytes) (c dkLen : Int)
    (hash : String) (p : AlgParams)
    (hp : HASHALGS? hash = some p) (hc : 0 < c) (hdk1 : 0 < dkLen)
    (hdk2 : dkLen < (2 ^ 32 - 1) * (p.outputLength : Int)) :
    1 ≤ lOf dkLen.toNat p.outputLength ∧
    lOf dkLen.toNat p.outputLength - 1 <
      (blocksOf hmac hash (hmacKeyOf p.blockSize P) S c.toNat
        (lOf dkLen.toNat p.outputLength)).length ∧
    ∃ DK, _pbkdf2 hmac P S c dkLen hash = .ok DK := by
  obtain ⟨hhpos, _⟩ := algParams_pos hash p hp
  have hdkpos : 0 < dkLen.toNat := by omega
  obtain ⟨hl1, _, _, _, _⟩ := ceil_facts p.outputLength dkLen.toNat hhpos hdkpos
  refine ⟨hl1, ?_, ?_⟩
  · rw [blocksOf_length]; omega
  · simp only [_pbkdf2, hp]
    rw [if_neg (by omega), if_neg (by push_neg; exact ⟨by omega, by omega⟩)]
    rw [concatList, if_neg (by rw [List.length_set, blocksOf_length]; omega)]
    exact ⟨_, rfl⟩

/-- Witness for C10: `hash = "SHA-512"`, `c = 1`, `dkLen = 70`
(two blocks). -/
theorem claim10_witness :
    1 ≤ lOf 70 64 ∧
      lOf 70 64 - 1 <
        (blocksOf hmacConst "SHA-512" (hmacKeyOf 128 [3]) [4] 1 (lOf 70 64)).length ∧
      ∃ DK, _pbkdf2 hmacConst [3] [4] 1 70 "SHA-512" = .ok DK :=
  claim10_concat_unreachable hmacConst [3] [4] 1 70 "SHA-512" ⟨64, 128⟩ rfl
    (by decide) (by decide) (by decide)

/-! ## Claim C4: the fail-fast policy is violated by the code -/

/-- Claim C4 concerns the fail-fast policy: a validation failure
should mean no platform cryptographic work is started.  The code of
`pbkdf2Hmac` calls `reject(...)` on a bad hash name (or a bad `P`/`S`
type) but does not return, and then always issues the platform
derivation call; `c` and `dkLen` are never validated here at all.
This theorem evaluates the event trace at a failing input
(`hash = "MD5"`): the promise is rejected first, and the platform
derivation call is nevertheless performed afterward, contradicting
the claim. -/
theorem claim4_platform_called_after_validation_failure :
    pbkdf2HmacTrace (.buf [1]) (.buf [2]) 1 32 "MD5" =
      [.reject (.rangeError invalidHashMsg), .platformCall "MD5" 1 32] ∧
    Ev.platformCall "MD5" 1 32 ∈ pbkdf2HmacTrace (.buf [1]) (.buf [2]) 1 32 "MD5" := by
  exact ⟨rfl, by decide⟩

end Pbkdf2
